import Mathlib

/-!
Verification of the marker-based field codec and chat-message adapter
(`dspy/adapters/vllm_adapter.py`).

Python strings are modelled as lists of characters (`Str := List Char`).
The model is line-oriented: `splitlines` is modelled for text whose line
terminators are `'\n'`; theorems whose truth could depend on the exotic
Python line-break characters (`'\r'`, `'\x0b'`, ..., `' '`) carry an
explicit hypothesis excluding those characters.  The regex `\w` is modelled
by its ASCII fragment (letters, digits, underscore).
-/

set_option maxRecDepth 20000

namespace Vllm

/-- Python strings, modelled as lists of characters. -/
abbrev Str := List Char

/-- The whitespace class of Python's `str.strip` (characters with
`c.isspace()` true). -/
def isSpace (c : Char) : Bool :=
  c = ' ' || c = '\t' || c = '\n' || c = '\r' || c = '\x0b' || c = '\x0c' ||
  c = '\x1c' || c = '\x1d' || c = '\x1e' || c = '\x1f' || c = '\x85' || c = '\xa0' ||
  c = ' ' || (0x2000 ≤ c.toNat && c.toNat ≤ 0x200a) ||
  c = ' ' || c = ' ' || c = ' ' || c = ' ' || c = '　'

/-- Python line-break characters other than `'\n'` (the ones `str.splitlines`
also splits on).  The model's `splitlines` splits on `'\n'` only, so theorems
about multi-line text restrict to strings without these. -/
def isHardBreak (c : Char) : Bool :=
  c = '\r' || c = '\x0b' || c = '\x0c' || c = '\x1c' || c = '\x1d' || c = '\x1e' ||
  c = '\x85' || c = ' ' || c = ' '

/-- Text whose only line terminator is `'\n'`: on such text the model's
`splitlines` agrees with Python's. -/
def plainText (s : Str) : Bool := s.all (fun c => !isHardBreak c)

/-- Python `s.lstrip()`. -/
def lstrip (s : Str) : Str := s.dropWhile isSpace

/-- Python `s.rstrip()`. -/
def rstrip (s : Str) : Str := (lstrip s.reverse).reverse

/-- Python `s.strip()`. -/
def strip (s : Str) : Str := rstrip (lstrip s)

/-- Split a string at every `'\n'`; always returns at least one piece. -/
def splitNl : Str → List Str
  | [] => [[]]
  | c :: cs =>
    match splitNl cs with
    | [] => [[c]]
    | a :: rest => if c = '\n' then [] :: a :: rest else (c :: a) :: rest

/-- Python `s.splitlines()` (for `'\n'`-terminated text): like `splitNl` but
an empty final piece is dropped, and the empty string gives no lines. -/
def splitlines (s : Str) : List Str :=
  if (splitNl s).getLast? = some [] then (splitNl s).dropLast else splitNl s

/-- Python `'\n'.join(ls)`. -/
def joinNl : List Str → Str
  | [] => []
  | [a] => a
  | a :: b :: rest => a ++ '\n' :: joinNl (b :: rest)

/-- Python `'\n\n'.join(ls)`. -/
def join2Nl : List Str → Str
  | [] => []
  | [a] => a
  | a :: b :: rest => a ++ '\n' :: '\n' :: join2Nl (b :: rest)

/-- The ASCII fragment of the regex class `\w`. -/
def isWordChar (c : Char) : Bool := c.isAlphanum || c = '_'

/-- Decide whether `p` is a prefix of `s` (regex `match` anchors only at the
start). -/
def startsWith : Str → Str → Bool
  | [], _ => true
  | _ :: _, [] => false
  | c :: p, d :: s => c = d && startsWith p s

/-- Literal text before the field name in a marker line. -/
def markerHead : Str := "[[[[ #### ".data

/-- Literal text after the field name in a marker line. -/
def markerTail : Str := " #### ]]]]".data

/-- The marker line for field `k`: Python `f"[[[[ #### {k} #### ]]]]"`. -/
def markerLine (k : Str) : Str := markerHead ++ k ++ markerTail

/-- Model of `field_header_pattern.match(line)` for the compiled pattern
`\[\[\[\[ #### (\w+) #### \]\]\]\]`: `re.match` anchors at the start only,
so trailing text after the closing brackets is accepted; returns the
captured `\w+` group. -/
def matchFieldHeader (line : Str) : Option Str :=
  if startsWith markerHead line then
    if ((line.drop markerHead.length).takeWhile isWordChar).isEmpty then none
    else if startsWith markerTail ((line.drop markerHead.length).dropWhile isWordChar) then
      some ((line.drop markerHead.length).takeWhile isWordChar)
    else none
  else none

/-- Anchored variant demanded by the specification's pattern
`^\[\[\[\[ #### (\w+) #### \]\]\]\]$`: the closing brackets must end the
line.  Stated from the spec's words, for comparison with the source's
`matchFieldHeader`. -/
def specAnchoredHeaderMatch (line : Str) : Option Str :=
  if startsWith markerHead line then
    if ((line.drop markerHead.length).takeWhile isWordChar).isEmpty then none
    else if (line.drop markerHead.length).dropWhile isWordChar = markerTail then
      some ((line.drop markerHead.length).takeWhile isWordChar)
    else none
  else none

/-- Model of `format_fields`: one marker line and the field's text per entry,
entries joined by a blank line, the whole result stripped. -/
def format_fields (fields : List (Str × Str)) : Str :=
  strip (join2Nl (fields.map (fun kv => markerLine kv.1 ++ '\n' :: kv.2)))

/-- Error values raised by the adapter (all are `ValueError` in the source;
the constructor records the diagnostic content). -/
inductive PyErr where
  | expectedGot (expected : List Str) (got : List Str)
  | failedEncode (field : Str)
  | unsupportedImage
  | fetchError (url : Str)
deriving DecidableEq, Repr

/-- The section-scanning loop of `ImageChatAdapter.parse`: each line is
matched (after stripping) against the header pattern; a match opens a new
section, a non-match appends the raw line to the current section's buffer. -/
def scanAux (cur : Option Str × List Str) : List Str → List (Option Str × List Str)
  | [] => [cur]
  | line :: rest =>
    match matchFieldHeader (strip line) with
    | some name => cur :: scanAux (some name, []) rest
    | none => scanAux (cur.1, cur.2 ++ [line]) rest

/-- The sections of a completion: scan its lines starting from the anonymous
section, then join each buffer with newlines and strip it. -/
def parseSections (completion : Str) : List (Option Str × Str) :=
  (scanAux (none, []) (splitlines completion)).map (fun kv => (kv.1, strip (joinNl kv.2)))

/-- The field-collection loop of `parse`: first-wins insertion of named
sections whose name is among the expected output fields. -/
def collectAux (outKeys : List Str) (acc : List (Str × Str)) :
    List (Option Str × Str) → List (Str × Str)
  | [] => acc
  | (none, _) :: rest => collectAux outKeys acc rest
  | (some k, v) :: rest =>
    if (acc.lookup k).isNone && outKeys.contains k then
      collectAux outKeys (acc ++ [(k, v)]) rest
    else collectAux outKeys acc rest

/-- Fields recovered from a section list (the `fields` dict of `parse`). -/
def collectFields (outKeys : List Str) (sections : List (Option Str × Str)) :
    List (Str × Str) :=
  collectAux outKeys [] sections

/-- Equality of Python `dict.keys()` views: set equality of the key lists. -/
def keySetEq (a b : List Str) : Bool :=
  a.all (fun k => b.contains k) && b.all (fun k => a.contains k)

/-- Core of `ImageChatAdapter.parse`, abstracted over the expected
output-field names: scan sections, collect first-wins eligible fields, and
fail unless the recovered key set equals the expected key set. -/
def parseFields (outKeys : List Str) (completion : Str) :
    Except PyErr (List (Str × Str)) :=
  if keySetEq ((collectFields outKeys (parseSections completion)).map Prod.fst) outKeys then
    Except.ok (collectFields outKeys (parseSections completion))
  else
    Except.error (PyErr.expectedGot outKeys
      ((collectFields outKeys (parseSections completion)).map Prod.fst))

deriving instance DecidableEq for Except

/-- Values in a demo or inputs mapping: a text string, a native in-memory
image object (its pixel data abstracted as bytes), or Python `None`. -/
inductive PyVal where
  | vStr (s : Str)
  | vImage (payload : List Nat)
  | vNone
deriving DecidableEq, Repr

/-- Python truthiness of the values the adapter meets: the empty string and
`None` are falsy; a PIL image object is truthy. -/
def PyVal.truthy : PyVal → Bool
  | PyVal.vStr s => !s.isEmpty
  | PyVal.vImage _ => true
  | PyVal.vNone => false

/-- Representation of a PIL image inside an f-string. -/
def pilReprTxt : Str := "<PIL.Image.Image>".data

/-- Representation of None inside an f-string. -/
def noneReprTxt : Str := "None".data

/-- Rendering of a value interpolated into an f-string. -/
def PyVal.fstr : PyVal → Str
  | PyVal.vStr s => s
  | PyVal.vImage _ => pilReprTxt
  | PyVal.vNone => noneReprTxt

/-- Dictionary lookup `values[k]` with the key known present; `vNone` stands
for the unreachable missing-key case (the superset precondition rules it
out before any lookup happens). -/
def lookupD (values : List (Str × PyVal)) (k : Str) : PyVal :=
  (values.lookup k).getD PyVal.vNone

/-- Python dict insertion `d[k] = v`: overwrite in place when the key exists
(keeping its position), else append. -/
def dictInsert {α : Type} (d : List (Str × α)) (k : Str) (v : α) : List (Str × α) :=
  if (d.lookup k).isSome then d.map (fun kv => if kv.1 = k then (k, v) else kv)
  else d ++ [(k, v)]

/-- A Python dict built from a pair sequence (dict comprehension). -/
def pyDict {α : Type} (pairs : List (Str × α)) : List (Str × α) :=
  pairs.foldl (fun d kv => dictInsert d kv.1 kv.2) []

/-- Contiguous-substring containment (Python `needle in hay`). -/
def containsSub (needle : Str) : Str → Bool
  | [] => needle.isEmpty
  | c :: rest => startsWith needle (c :: rest) || containsSub needle rest

/-- The substring that classifies a field as an image field. -/
def imageSub : Str := "image".data

/-- Name-based image-field classification: `'image' in k`. -/
def isImageName (k : Str) : Bool := containsSub imageSub k

/-- The I/O collaborators used by `encode_image`, abstracted as pure
functions: PIL PNG re-encoding of an image's pixel data, base64 encoding,
local-file reading (`none` when `os.path.isfile` is false), and HTTP GET
(an error when `raise_for_status` fires). -/
structure ImgEnv where
  pngSave : List Nat → List Nat
  b64 : List Nat → Str
  readFile : Str → Option (List Nat)
  httpGet : Str → Except PyErr (List Nat)

/-- Model of `encode_image`: a native image object is re-encoded to PNG in
memory and base64'd; a string naming an existing local file is read raw and
base64'd; any other string is fetched as a URL; anything else is an
unsupported-type error. -/
def encode_image (env : ImgEnv) : PyVal → Except PyErr Str
  | PyVal.vImage payload => Except.ok (env.b64 (env.pngSave payload))
  | PyVal.vStr s =>
    match env.readFile s with
    | some bytes => Except.ok (env.b64 bytes)
    | none =>
      match env.httpGet s with
      | Except.ok body => Except.ok (env.b64 body)
      | Except.error e => Except.error e
  | PyVal.vNone => Except.error PyErr.unsupportedImage

/-- One content part of a chat message. -/
inductive ContentPart where
  | image (url : Str)
  | text (t : Str)
deriving DecidableEq, Repr

/-- The literal data-URI head of every image part. -/
def dataUriHead : Str := "data:image/jpeg;base64,".data

/-- The image-part loop of `format_chat_turn`: image-named fields in field
order; a falsy value is skipped; an encoding failure or an empty encoding
aborts the call. -/
def buildImageParts (env : ImgEnv) (values : List (Str × PyVal)) :
    List Str → Except PyErr (List ContentPart)
  | [] => Except.ok []
  | k :: ks =>
    if isImageName k then
      if (lookupD values k).truthy then
        match encode_image env (lookupD values k) with
        | Except.error e => Except.error e
        | Except.ok b =>
          if b.isEmpty then Except.error (PyErr.failedEncode k)
          else
            match buildImageParts env values ks with
            | Except.error e => Except.error e
            | Except.ok rest => Except.ok (ContentPart.image (dataUriHead ++ b) :: rest)
      else buildImageParts env values ks
    else buildImageParts env values ks

/-- Model of `format_chat_turn`: check the superset precondition, render the
non-image fields as the single trailing text part, and put the image parts
(in field order) before it. -/
def format_chat_turn (env : ImgEnv) (field_names : List Str)
    (values : List (Str × PyVal)) : Except PyErr (List ContentPart) :=
  if field_names.all (fun k => (values.lookup k).isSome) then
    match buildImageParts env values field_names with
    | Except.error e => Except.error e
    | Except.ok imgs =>
      Except.ok (imgs ++ [ContentPart.text (format_fields (pyDict
        ((field_names.filter (fun k => !isImageName k)).map
          (fun k => (k, (lookupD values k).fstr)))))])
  else Except.error (PyErr.expectedGot field_names (values.map Prod.fst))

/-- Per-field metadata: the type's display name (`annotation.__name__`) and
the description string (`json_schema_extra['desc']`). -/
structure FieldSpec where
  typeName : Str
  desc : Str
deriving DecidableEq, Repr

/-- A signature: ordered input and output field mappings plus the caller's
free-text objective. -/
structure Signature where
  input_fields : List (Str × FieldSpec)
  output_fields : List (Str × FieldSpec)
  instructions : Str
deriving DecidableEq, Repr

/-- Message content: the system message carries a plain string, user and
assistant messages carry a list of content parts. -/
inductive MsgContent where
  | text (s : Str)
  | parts (ps : List ContentPart)
deriving DecidableEq, Repr

/-- A chat message. -/
structure Message where
  role : Str
  content : MsgContent
deriving DecidableEq, Repr

/-- The decimal digit characters. -/
def digitChar (d : Nat) : Char :=
  if d = 0 then '0' else if d = 1 then '1' else if d = 2 then '2'
  else if d = 3 then '3' else if d = 4 then '4' else if d = 5 then '5'
  else if d = 6 then '6' else if d = 7 then '7' else if d = 8 then '8' else '9'

/-- Decimal rendering, structurally recursive on a fuel bound (the fuel
`n + 1` always suffices since the argument shrinks by a factor of ten). -/
def natToStrAux : Nat → Nat → Str
  | 0, _ => []
  | fuel + 1, n =>
    if n < 10 then [digitChar n]
    else natToStrAux fuel (n / 10) ++ [digitChar (n % 10)]

/-- Decimal rendering of a natural number (f-string `f"..."` on an int). -/
def natToStr (n : Nat) : Str := natToStrAux (n + 1) n

/-- Literal fragments of the field-catalog entry line. -/
def dotBacktick : Str := ". `".data

/-- Fragment between name and type display name. -/
def backtickParen : Str := "` (".data

/-- Closing parenthesis after the type display name. -/
def closeParen : Str := ")".data

/-- Separator before a description. -/
def colonSpace : Str := ": ".data

/-- Literal dollar-brace of the sentinel. -/
def dollarBrace : Str := "$\x7b".data

/-- Literal closing brace. -/
def rbrace : Str := "\x7d".data

/-- Literal opening brace. -/
def lbrace : Str := "\x7b".data

/-- The "no description" sentinel for field `k`: the three-brace f-string
renders as a dollar sign, an opening brace, the name, a closing brace. -/
def descSentinel (k : Str) : Str := dollarBrace ++ k ++ rbrace

/-- One line of the field catalog, numbered from 1; the description suffix
appears exactly when the description differs from the sentinel. -/
def entryLine (idx : Nat) (k : Str) (v : FieldSpec) : Str :=
  natToStr (idx + 1) ++ dotBacktick ++ k ++ backtickParen ++ v.typeName ++ closeParen ++
    (if v.desc = descSentinel k then [] else colonSpace ++ v.desc)

/-- The `enumerate` loop of `enumerate_fields`, carrying the counter. -/
def enumLines (idx : Nat) : List (Str × FieldSpec) → List Str
  | [] => []
  | (k, v) :: rest => entryLine idx k v :: enumLines (idx + 1) rest

/-- Model of `enumerate_fields`: catalog lines joined with newlines, the
result stripped. -/
def enumerate_fields (fields : List (Str × FieldSpec)) : Str :=
  strip (joinNl (enumLines 0 fields))

/-- Generic Python `sep.join(ls)`. -/
def joinWith (sep : Str) : List Str → Str
  | [] => []
  | [a] => a
  | a :: b :: rest => a ++ sep ++ joinWith sep (b :: rest)

/-- Literal texts of `prepare_instructions`. -/
def txtInputAre : Str := "Your input fields are:\n".data

/-- Heading of the output-field catalog. -/
def txtOutputAre : Str := "Your output fields are:\n".data

/-- Fixed sentence introducing the structured turn template. -/
def txtStructured : Str :=
  "All interactions will be structured in the following way, with the appropriate values filled in.".data

/-- Opening of the response instruction sentence. -/
def txtRespondA : Str :=
  "You will receive some input fields in each interaction. Respond only with the corresponding output fields, starting with the field ".data

/-- Closing of the response instruction sentence. -/
def txtRespondB : Str := ", and then ending with the marker for `completed`.".data

/-- Separator between the quoted output-field names. -/
def txtThenSep : Str := ", then ".data

/-- Heading of the objective paragraph. -/
def txtObjective : Str := "In adhering to this structure, your objective is: ".data

/-- Newline plus eight spaces, prefixed to each objective line. -/
def indent8 : Str := "\n        ".data

/-- The synthetic completion-sentinel field name. -/
def completedKey : Str := "completed".data

/-- A literal backtick. -/
def backtickTxt : Str := "`".data

/-- Placeholder text for a field in the turn template: an opening brace, the
name, a closing brace. -/
def placeholder (f : Str) : Str := lbrace ++ f ++ rbrace

/-- Model of `prepare_instructions`. -/
def prepare_instructions (sig : Signature) : Str :=
  strip (join2Nl [
    txtInputAre ++ enumerate_fields sig.input_fields,
    txtOutputAre ++ enumerate_fields sig.output_fields,
    txtStructured,
    format_fields (sig.input_fields.map (fun kv => (kv.1, placeholder kv.1))),
    format_fields (sig.output_fields.map (fun kv => (kv.1, placeholder kv.1))),
    format_fields [(completedKey, [])],
    txtRespondA ++
      joinWith txtThenSep (sig.output_fields.map (fun kv => backtickTxt ++ kv.1 ++ backtickTxt)) ++
      txtRespondB,
    txtObjective ++ joinWith indent8 ([] :: splitlines sig.instructions)])

/-- A demo or live-input value mapping. -/
abbrev Demo := List (Str × PyVal)

/-- Message roles. -/
def roleSystem : Str := "system".data

/-- The user role. -/
def roleUser : Str := "user".data

/-- The assistant role. -/
def roleAssistant : Str := "assistant".data

/-- The demo loop of `ImageChatAdapter.format`: for each demo a user turn
over the input fields, then an assistant turn over the output fields plus
the synthetic `completed` field, added to a fresh copy of the demo. -/
def formatDemos (env : ImgEnv) (sig : Signature) : List Demo → Except PyErr (List Message)
  | [] => Except.ok []
  | demo :: rest =>
    match format_chat_turn env (sig.input_fields.map Prod.fst) demo with
    | Except.error e => Except.error e
    | Except.ok u =>
      match format_chat_turn env (sig.output_fields.map Prod.fst ++ [completedKey])
          (dictInsert demo completedKey (PyVal.vStr [])) with
      | Except.error e => Except.error e
      | Except.ok a =>
        match formatDemos env sig rest with
        | Except.error e => Except.error e
        | Except.ok body =>
          Except.ok (Message.mk roleUser (MsgContent.parts u) ::
            Message.mk roleAssistant (MsgContent.parts a) :: body)

/-- Model of `ImageChatAdapter.format`: a system message holding the
prepared instructions, the demo turns, and a final user message over the
live inputs. -/
def ImageChatAdapter.format (env : ImgEnv) (sig : Signature) (demos : List Demo)
    (inputs : Demo) : Except PyErr (List Message) :=
  match formatDemos env sig demos with
  | Except.error e => Except.error e
  | Except.ok body =>
    match format_chat_turn env (sig.input_fields.map Prod.fst) inputs with
    | Except.error e => Except.error e
    | Except.ok fin =>
      Except.ok (Message.mk roleSystem (MsgContent.text (prepare_instructions sig)) ::
        (body ++ [Message.mk roleUser (MsgContent.parts fin)]))

/-- Model of `ImageChatAdapter.parse`. -/
def ImageChatAdapter.parse (sig : Signature) (completion : Str) :
    Except PyErr (List (Str × Str)) :=
  parseFields (sig.output_fields.map Prod.fst) completion

/-- The named sections of a completion that survive the drops the spec
describes: the anonymous section and unexpected names removed (duplicates
kept). -/
def recoveredNames (outKeys : List Str) (completion : Str) : List Str :=
  ((parseSections completion).filterMap Prod.fst).filter (fun k => outKeys.contains k)

/-- Proof auxiliary: the line group contributed by one rendered field block
(the last block bare, earlier blocks followed by the separating blank
line). -/
def blockLines : List (Str × Str) → List Str
  | [] => []
  | [(k, v)] => markerLine k :: (if v = [] then [] else splitNl v)
  | (k, v) :: f :: rest => markerLine k :: (splitNl v ++ [[]] ++ blockLines (f :: rest))

/-- Proof auxiliary: the raw section list the scan produces on a rendered
block. -/
def rawSections : List (Str × Str) → List (Option Str × List Str)
  | [] => []
  | [(k, v)] => [(some k, if v = [] then [] else splitNl v)]
  | (k, v) :: f :: rest => (some k, splitNl v ++ [[]]) :: rawSections (f :: rest)

/-- Content of the first section named `k` (the first-wins reference
value). -/
def firstNamed (k : Str) (sections : List (Option Str × Str)) : Option Str :=
  (sections.filterMap (fun s => if s.1 = some k then some s.2 else none)).head?

/-- Proof auxiliary: the rendered block of one field. -/
def blockOf (kv : Str × Str) : Str := markerLine kv.1 ++ '\n' :: kv.2

/-- Result of encoding, with the error collapsed to the empty string (used
only under a success hypothesis). -/
def encOf (env : ImgEnv) (v : PyVal) : Str := (encode_image env v).toOption.getD []

/-- The marker head without its leading bracket. -/
def mhTail : Str := "[[[ #### ".data

/-- The marker tail without its trailing bracket. -/
def mtInit : Str := " #### ]]]".data

/-- The marker tail without its leading space. -/
def mtTail : Str := "#### ]]]]".data

/-- A completion with two sections named `a` (first-wins witness input). -/
def dupCompletion : Str := "[[[[ #### a #### ]]]]\n1\n\n[[[[ #### a #### ]]]]\n2".data

/-- A line that begins with a marker but carries trailing text. -/
def c3line : Str := "[[[[ #### a #### ]]]] x".data

/-- A completion whose first line begins with a marker but carries trailing
text. -/
def c3completion : Str := "[[[[ #### a #### ]]]] x\nv".data

/-- Type display name used in concrete catalog inputs. -/
def c8typ : Str := "str".data

/-- A description with trailing whitespace. -/
def c8descSp : Str := "x ".data

/-- The catalog line the adapter actually produces for that description. -/
def c8lineOut : Str := "1. `a` (str): x".data

/-- The catalog line verbatim inclusion would produce. -/
def c8lineSp : Str := "1. `a` (str): x ".data

/-- A trivial concrete collaborator environment used by witnesses: PNG
re-encoding is the identity on payloads, base64 always yields `Qg`, no
local files exist, and every fetch fails. -/
def envTriv : ImgEnv :=
  ImgEnv.mk (fun b => b) (fun _ => ['Q', 'g']) (fun _ => none)
    (fun u => Except.error (PyErr.fetchError u))

/-- A signature with no fields and an empty objective. -/
def sigTriv : Signature := Signature.mk [] [] []

/-- A concrete value mapping with one image field and one text field. -/
def demoVals : Demo := [(imageSub, PyVal.vImage [0]), (['a'], PyVal.vStr ['x'])]

/-- The content parts the builder produces on `demoVals`. -/
def c5parts : List ContentPart :=
  (format_chat_turn envTriv [imageSub, ['a']] demoVals).toOption.getD []

/-- The messages `format` produces on the trivial signature with one empty
demo. -/
def c6msgs : List Message :=
  (ImageChatAdapter.format envTriv sigTriv [[]] []).toOption.getD []

theorem splitNl_ne_nil (s : Str) : splitNl s ≠ [] := by
  cases s with
  | nil => simp [splitNl]
  | cons c cs =>
    simp only [splitNl]
    rcases splitNl cs with _ | ⟨a, rest⟩
    · simp
    · by_cases hc : c = '\n' <;> simp [hc]

theorem splitNl_append_nl (a b : Str) :
    splitNl (a ++ '\n' :: b) = splitNl a ++ splitNl b := by
  induction a with
  | nil =>
    cases hb : splitNl b with
    | nil => exact absurd hb (splitNl_ne_nil b)
    | cons x rest => simp [splitNl, hb]
  | cons c a ih =>
    cases ha : splitNl a with
    | nil => exact absurd ha (splitNl_ne_nil a)
    | cons x rest =>
      simp only [List.cons_append, splitNl, List.append_eq]
      rw [ih, ha]
      by_cases hc : c = '\n' <;> simp [hc]

theorem splitNl_nl_cons (b : Str) : splitNl ('\n' :: b) = [] :: splitNl b := by
  have h := splitNl_append_nl [] b
  simpa [splitNl] using h

theorem splitNl_no_nl {a : Str} (h : '\n' ∉ a) : splitNl a = [a] := by
  induction a with
  | nil => simp [splitNl]
  | cons c a ih =>
    have hc : ¬ c = '\n' := fun e => h (e ▸ List.mem_cons_self c a)
    have ha : '\n' ∉ a := fun m => h (List.mem_cons_of_mem _ m)
    simp [splitNl, ih ha, hc]

theorem joinNl_cons_cons (a b : Str) (rest : List Str) :
    joinNl (a :: b :: rest) = a ++ '\n' :: joinNl (b :: rest) := rfl

theorem joinNl_splitNl (s : Str) : joinNl (splitNl s) = s := by
  induction s with
  | nil => simp [splitNl, joinNl]
  | cons c s ih =>
    cases hs : splitNl s with
    | nil => exact absurd hs (splitNl_ne_nil s)
    | cons x rest =>
      rw [hs] at ih
      by_cases hc : c = '\n'
      · subst hc
        rw [splitNl_nl_cons, hs, joinNl_cons_cons]
        simpa using ih
      · simp only [splitNl, hs, if_neg hc]
        cases rest with
        | nil => simpa [joinNl] using congrArg (c :: ·) ih
        | cons y t =>
          rw [joinNl_cons_cons] at ih ⊢
          simpa using congrArg (c :: ·) ih

theorem joinNl_append_single (A : List Str) (b : Str) (h : A ≠ []) :
    joinNl (A ++ [b]) = joinNl A ++ '\n' :: b := by
  induction A with
  | nil => exact absurd rfl h
  | cons a A ih =>
    cases A with
    | nil => simp [joinNl]
    | cons a2 A2 =>
      have ih2 := ih (by simp)
      rw [List.cons_append] at ih2
      rw [List.cons_append, List.cons_append, joinNl_cons_cons, ih2, joinNl_cons_cons]
      simp

theorem lstrip_cons_keep {c : Char} (h : isSpace c = false) (t : Str) :
    lstrip (c :: t) = c :: t := by
  simp [lstrip, List.dropWhile_cons, h]

theorem lstrip_append (a b : Str) :
    lstrip (a ++ b) = if lstrip a = [] then lstrip b else lstrip a ++ b := by
  unfold lstrip
  rw [List.dropWhile_append]
  rcases h : a.dropWhile isSpace with _ | _ <;> simp [h]

theorem rstrip_empty_iff (s : Str) : rstrip s = [] ↔ lstrip s.reverse = [] := by
  unfold rstrip
  simp

theorem rstrip_append (a b : Str) :
    rstrip (a ++ b) = if rstrip b = [] then rstrip a else a ++ rstrip b := by
  unfold rstrip
  rw [List.reverse_append, lstrip_append]
  by_cases h2 : lstrip b.reverse = []
  · simp [h2]
  · rw [if_neg h2, List.reverse_append, List.reverse_reverse,
      if_neg (by simpa using h2)]

theorem rstrip_snoc_keep {c : Char} (h : isSpace c = false) (a : Str) :
    rstrip (a ++ [c]) = a ++ [c] := by
  rw [rstrip_append]
  have hc : rstrip [c] = [c] := by
    unfold rstrip lstrip
    simp [h]
  simp [hc]

theorem rstrip_snoc_drop {c : Char} (h : isSpace c = true) (a : Str) :
    rstrip (a ++ [c]) = rstrip a := by
  rw [rstrip_append]
  have hc : rstrip [c] = [] := by
    unfold rstrip lstrip
    simp [h]
  simp [hc]

theorem length_lstrip_le (s : Str) : (lstrip s).length ≤ s.length := by
  induction s with
  | nil => simp [lstrip]
  | cons c t ih =>
    by_cases h : isSpace c
    · simp only [lstrip, List.dropWhile_cons, h, if_pos]
      exact le_trans ih (by simp)
    · simp [lstrip_cons_keep (by simpa using h)]

theorem length_rstrip_le (s : Str) : (rstrip s).length ≤ s.length := by
  unfold rstrip
  simpa using length_lstrip_le s.reverse

theorem lstrip_eq_of_length {s : Str} (h : (lstrip s).length = s.length) :
    lstrip s = s := by
  induction s with
  | nil => simp [lstrip]
  | cons c t _ =>
    by_cases hc : isSpace c
    · exfalso
      have hlt : (lstrip (c :: t)).length ≤ t.length := by
        simp only [lstrip, List.dropWhile_cons, hc, if_true]
        exact length_lstrip_le t
      rw [h] at hlt
      simp only [List.length_cons] at hlt
      omega
    · exact lstrip_cons_keep (by simpa using hc) t

theorem strip_parts {v : Str} (h : strip v = v) : lstrip v = v ∧ rstrip v = v := by
  have h1 : (strip v).length ≤ (lstrip v).length := length_rstrip_le (lstrip v)
  have h2 : (lstrip v).length ≤ v.length := length_lstrip_le v
  have hl : lstrip v = v := lstrip_eq_of_length (by rw [h] at h1; omega)
  refine ⟨hl, ?_⟩
  have : strip v = rstrip v := by rw [strip, hl]
  rw [← this, h]

theorem rstrip_last_not_space {v : Str} (h : rstrip v = v) (hne : v ≠ []) :
    ∃ a c, v = a ++ [c] ∧ isSpace c = false := by
  rcases List.eq_nil_or_concat' v with rfl | ⟨a, c, rfl⟩
  · exact absurd rfl hne
  refine ⟨a, c, rfl, ?_⟩
  by_contra hc
  have hc2 : isSpace c = true := by simpa using hc
  have := rstrip_snoc_drop hc2 a
  rw [h] at this
  have hlen := length_rstrip_le a
  have hlen2 : (a ++ [c]).length = (rstrip a).length := congrArg List.length this
  simp at hlen2
  omega

theorem rstrip_eq_nil_iff (s : Str) : rstrip s = [] ↔ ∀ c ∈ s, isSpace c = true := by
  rw [rstrip_empty_iff]
  unfold lstrip
  rw [List.dropWhile_eq_nil_iff]
  simp

theorem startsWith_self_append (p t : Str) : startsWith p (p ++ t) = true := by
  induction p with
  | nil => simp [startsWith]
  | cons c p ih => simp [startsWith, ih]

theorem startsWith_iff {p s : Str} : startsWith p s = true ↔ ∃ t, s = p ++ t := by
  constructor
  · intro h
    induction p generalizing s with
    | nil => exact ⟨s, rfl⟩
    | cons c p ih =>
      cases s with
      | nil => simp [startsWith] at h
      | cons d s2 =>
        simp only [startsWith, Bool.and_eq_true, decide_eq_true_eq] at h
        obtain ⟨t, rfl⟩ := ih h.2
        exact ⟨t, by rw [h.1]; rfl⟩
  · rintro ⟨t, rfl⟩
    exact startsWith_self_append p t

theorem markerHead_cons : markerHead = '[' :: mhTail := by decide

theorem markerTail_cons : markerTail = ' ' :: mtTail := by decide

theorem markerTail_snoc : markerTail = mtInit ++ [']'] := by decide

theorem lstrip_markerLine (k : Str) : lstrip (markerLine k) = markerLine k := by
  rw [markerLine, markerHead_cons, List.cons_append]
  exact lstrip_cons_keep (by decide) _

theorem rstrip_markerLine (k : Str) : rstrip (markerLine k) = markerLine k := by
  rw [markerLine, markerTail_snoc]
  rw [show markerHead ++ k ++ (mtInit ++ [']']) =
    (markerHead ++ k ++ mtInit) ++ [']'] by simp]
  exact rstrip_snoc_keep (by decide) _

theorem strip_markerLine (k : Str) : strip (markerLine k) = markerLine k := by
  rw [strip, lstrip_markerLine, rstrip_markerLine]

theorem nl_not_mem_markerLine {k : Str} (hw : k.all isWordChar = true) :
    '\n' ∉ markerLine k := by
  intro mem
  rw [markerLine] at mem
  rcases List.mem_append.mp mem with h1 | h2
  · rcases List.mem_append.mp h1 with ha | hb
    · exact absurd ha (by decide)
    · have := List.all_eq_true.mp hw _ hb
      exact absurd this (by decide)
  · exact absurd h2 (by decide)

theorem takeWhile_word_markerTail (t : Str) :
    (markerTail ++ t).takeWhile isWordChar = [] := by
  rw [markerTail_cons, List.cons_append]
  exact List.takeWhile_cons_of_neg (by decide)

theorem dropWhile_word_markerTail (t : Str) :
    (markerTail ++ t).dropWhile isWordChar = markerTail ++ t := by
  rw [markerTail_cons, List.cons_append]
  exact List.dropWhile_cons_of_neg (by decide)

theorem matchFieldHeader_eq_some {l name : Str} :
    matchFieldHeader l = some name ↔
      name ≠ [] ∧ name.all isWordChar = true ∧
        ∃ t, l = markerHead ++ (name ++ (markerTail ++ t)) := by
  constructor
  · intro h
    unfold matchFieldHeader at h
    by_cases hs : startsWith markerHead l = true
    · rw [if_pos hs] at h
      obtain ⟨r, rfl⟩ := startsWith_iff.mp hs
      rw [List.drop_left] at h
      by_cases he : (r.takeWhile isWordChar).isEmpty = true
      · rw [if_pos he] at h
        exact absurd h (by simp)
      · rw [if_neg he] at h
        by_cases ht : startsWith markerTail (r.dropWhile isWordChar) = true
        · rw [if_pos ht] at h
          obtain ⟨t, hdrop⟩ := startsWith_iff.mp ht
          have hname : r.takeWhile isWordChar = name := by
            simpa using h
          refine ⟨?_, ?_, t, ?_⟩
          · rw [← hname]
            simpa [List.isEmpty_iff] using he
          · rw [← hname]
            exact List.all_takeWhile
          · rw [← hname, ← hdrop, List.takeWhile_append_dropWhile]
        · rw [if_neg ht] at h
          exact absurd h (by simp)
    · rw [if_neg hs] at h
      exact absurd h (by simp)
  · rintro ⟨hne, hw, t, rfl⟩
    have hall : ∀ c ∈ name, isWordChar c = true := List.all_eq_true.mp hw
    unfold matchFieldHeader
    rw [if_pos (startsWith_self_append _ _), List.drop_left,
      List.takeWhile_append_of_pos hall, takeWhile_word_markerTail,
      List.dropWhile_append_of_pos hall, dropWhile_word_markerTail]
    rw [if_neg (by simpa [List.isEmpty_iff] using hne),
      if_pos (startsWith_self_append _ _)]
    simp

theorem matchFieldHeader_markerLine {k : Str} (hne : k ≠ [])
    (hw : k.all isWordChar = true) :
    matchFieldHeader (markerLine k) = some k := by
  exact matchFieldHeader_eq_some.mpr ⟨hne, hw, [], by simp [markerLine]⟩

theorem matchFieldHeader_nil : matchFieldHeader [] = none := by decide

theorem scanAux_skip_lines (key : Option Str) (buf : List Str) (L rest : List Str)
    (h : ∀ l ∈ L, matchFieldHeader (strip l) = none) :
    scanAux (key, buf) (L ++ rest) = scanAux (key, buf ++ L) rest := by
  induction L generalizing buf with
  | nil => simp
  | cons l L ih =>
    have hl := h l (List.mem_cons_self l L)
    simp only [List.cons_append, scanAux, hl, List.append_eq]
    rw [ih (buf ++ [l]) (fun x hx => h x (List.mem_cons_of_mem _ hx))]
    simp

theorem scanAux_marker (key : Option Str) (buf : List Str) {k : Str}
    (rest : List Str) (hne : k ≠ []) (hw : k.all isWordChar = true) :
    scanAux (key, buf) (markerLine k :: rest) =
      (key, buf) :: scanAux (some k, []) rest := by
  simp only [scanAux, strip_markerLine, matchFieldHeader_markerLine hne hw]

theorem join2Nl_cons_cons (a b : Str) (rest : List Str) :
    join2Nl (a :: b :: rest) = a ++ '\n' :: '\n' :: join2Nl (b :: rest) := rfl

theorem markerLine_ne_nil (k : Str) : markerLine k ≠ [] := by
  rw [markerLine, markerHead_cons]
  simp

theorem blockOf_head (kv : Str × Str) : ∃ t, blockOf kv = '[' :: t := by
  refine ⟨mhTail ++ (kv.1 ++ (markerTail ++ '\n' :: kv.2)), ?_⟩
  rw [blockOf, markerLine, markerHead_cons]
  simp

theorem doc_head (f : Str × Str) (rest : List (Str × Str)) :
    ∃ t, join2Nl ((f :: rest).map blockOf) = '[' :: t := by
  obtain ⟨t0, h0⟩ := blockOf_head f
  cases rest with
  | nil => exact ⟨t0, by simpa [join2Nl] using h0⟩
  | cons g rest2 =>
    refine ⟨t0 ++ '\n' :: '\n' :: join2Nl ((g :: rest2).map blockOf), ?_⟩
    rw [List.map_cons, List.map_cons, join2Nl_cons_cons, h0, ← List.map_cons]
    simp

theorem lstrip_doc (f : Str × Str) (rest : List (Str × Str)) :
    lstrip (join2Nl ((f :: rest).map blockOf)) = join2Nl ((f :: rest).map blockOf) := by
  obtain ⟨t, h⟩ := doc_head f rest
  rw [h]
  exact lstrip_cons_keep (by decide) _

theorem rstrip_doc_ne_nil (f : Str × Str) (rest : List (Str × Str)) :
    rstrip (join2Nl ((f :: rest).map blockOf)) ≠ [] := by
  obtain ⟨t, h⟩ := doc_head f rest
  intro he
  have := (rstrip_eq_nil_iff _).mp he '[' (by rw [h]; exact List.mem_cons_self _ _)
  exact absurd this (by decide)

theorem splitNl_blockOf {k : Str} (v : Str) (hw : k.all isWordChar = true) :
    splitNl (blockOf (k, v)) = markerLine k :: splitNl v := by
  rw [blockOf, splitNl_append_nl, splitNl_no_nl (nl_not_mem_markerLine hw)]
  rfl

theorem strip_blockOf_last {k v : Str} (hv : strip v = v) :
    strip (blockOf (k, v)) = if v = [] then markerLine k else blockOf (k, v) := by
  by_cases hveq : v = []
  · subst hveq
    rw [if_pos rfl, blockOf]
    have h1 : lstrip (markerLine k ++ '\n' :: ([] : Str)) = markerLine k ++ ['\n'] := by
      rw [lstrip_append, if_neg (by rw [lstrip_markerLine]; exact markerLine_ne_nil k),
        lstrip_markerLine]
    rw [strip, h1, rstrip_snoc_drop (by decide), rstrip_markerLine]
  · obtain ⟨hls, hrs⟩ := strip_parts hv
    obtain ⟨a, c, hac, hc⟩ := rstrip_last_not_space hrs hveq
    rw [if_neg hveq, blockOf, strip]
    have h1 : lstrip (markerLine k ++ '\n' :: v) = markerLine k ++ '\n' :: v := by
      rw [lstrip_append, if_neg (by rw [lstrip_markerLine]; exact markerLine_ne_nil k),
        lstrip_markerLine]
    rw [h1, hac]
    rw [show markerLine k ++ '\n' :: (a ++ [c]) = (markerLine k ++ '\n' :: a) ++ [c] by simp]
    rw [rstrip_snoc_keep hc]

theorem splitNl_strip_doc (fields : List (Str × Str)) (hne : fields ≠ [])
    (hwf : ∀ kv ∈ fields, kv.1 ≠ [] ∧ kv.1.all isWordChar = true ∧ strip kv.2 = kv.2) :
    splitNl (strip (join2Nl (fields.map blockOf))) = blockLines fields := by
  induction fields with
  | nil => exact absurd rfl hne
  | cons f rest ih =>
    obtain ⟨k, v⟩ := f
    have hk := hwf (k, v) (List.mem_cons_self _ _)
    cases rest with
    | nil =>
      show splitNl (strip (join2Nl [blockOf (k, v)])) = blockLines [(k, v)]
      have hj : join2Nl [blockOf (k, v)] = blockOf (k, v) := rfl
      rw [hj, strip_blockOf_last hk.2.2]
      by_cases hveq : v = []
      · rw [if_pos hveq, splitNl_no_nl (nl_not_mem_markerLine hk.2.1), hveq]
        rfl
      · rw [if_neg hveq, splitNl_blockOf v hk.2.1]
        show _ = markerLine k :: (if v = [] then [] else splitNl v)
        rw [if_neg hveq]
    | cons g rest2 =>
      have hrest : ∀ kv ∈ g :: rest2, kv.1 ≠ [] ∧ kv.1.all isWordChar = true ∧
          strip kv.2 = kv.2 := fun kv hkv => hwf kv (List.mem_cons_of_mem _ hkv)
      have ihr := ih (by simp) hrest
      have hdoc : join2Nl (((k, v) :: g :: rest2).map blockOf) =
          blockOf (k, v) ++ '\n' :: '\n' :: join2Nl ((g :: rest2).map blockOf) := by
        rw [List.map_cons, List.map_cons, join2Nl_cons_cons, ← List.map_cons]
      set docRest := join2Nl ((g :: rest2).map blockOf) with hdr
      have hstrip : strip (blockOf (k, v) ++ '\n' :: '\n' :: docRest) =
          blockOf (k, v) ++ '\n' :: '\n' :: strip docRest := by
        obtain ⟨t0, h0⟩ := blockOf_head (k, v)
        have hl : lstrip (blockOf (k, v) ++ '\n' :: '\n' :: docRest) =
            blockOf (k, v) ++ '\n' :: '\n' :: docRest := by
          rw [h0, List.cons_append]
          exact lstrip_cons_keep (by decide) _
        rw [strip, hl]
        rw [show blockOf (k, v) ++ '\n' :: '\n' :: docRest =
          (blockOf (k, v) ++ ['\n', '\n']) ++ docRest by simp]
        rw [rstrip_append, if_neg (rstrip_doc_ne_nil g rest2)]
        have : rstrip docRest = strip docRest := by
          rw [strip, lstrip_doc]
        rw [this]
        simp
      rw [hdoc, hstrip]
      rw [show blockOf (k, v) ++ '\n' :: '\n' :: strip docRest =
        blockOf (k, v) ++ '\n' :: ('\n' :: strip docRest) by rfl]
      rw [splitNl_append_nl, splitNl_blockOf v hk.2.1, splitNl_nl_cons, ihr]
      show _ = markerLine k :: (splitNl v ++ [[]] ++ blockLines (g :: rest2))
      simp

theorem splitNl_snoc_getLast {a : Str} {c : Char} (hc : ¬ c = '\n') :
    ∃ l, (splitNl (a ++ [c])).getLast? = some (l ++ [c]) := by
  induction a with
  | nil => exact ⟨[], by simp [splitNl, hc]⟩
  | cons d a ih =>
    obtain ⟨l, hl⟩ := ih
    cases hs : splitNl (a ++ [c]) with
    | nil => exact absurd hs (splitNl_ne_nil _)
    | cons x rest =>
      rw [hs] at hl
      by_cases hd : d = '\n'
      · refine ⟨l, ?_⟩
        rw [List.cons_append, hd, splitNl_nl_cons, hs]
        simpa using hl
      · cases rest with
        | nil =>
          refine ⟨d :: l, ?_⟩
          rw [List.cons_append]
          simp only [splitNl, hs]
          rw [if_neg hd]
          simp only [List.getLast?_singleton, Option.some.injEq] at hl ⊢
          simp [hl]
        | cons y rest2 =>
          refine ⟨l, ?_⟩
          rw [List.cons_append]
          simp only [splitNl, hs]
          rw [if_neg hd]
          simpa using hl

theorem blockLines_ne_nil (f : Str × Str) (rest : List (Str × Str)) :
    blockLines (f :: rest) ≠ [] := by
  obtain ⟨k, v⟩ := f
  cases rest <;> simp [blockLines]

theorem blockLines_getLast_ne (fields : List (Str × Str)) (hne : fields ≠ [])
    (hv : ∀ kv ∈ fields, strip kv.2 = kv.2) :
    blockLines fields ≠ [] ∧ (blockLines fields).getLast? ≠ some [] := by
  induction fields with
  | nil => exact absurd rfl hne
  | cons f rest ih =>
    obtain ⟨k, v⟩ := f
    refine ⟨blockLines_ne_nil _ _, ?_⟩
    cases rest with
    | nil =>
      by_cases hveq : v = []
      · show ((markerLine k :: (if v = [] then [] else splitNl v)).getLast? ≠ some [])
        rw [if_pos hveq]
        simpa using markerLine_ne_nil k
      · show ((markerLine k :: (if v = [] then [] else splitNl v)).getLast? ≠ some [])
        rw [if_neg hveq]
        have hstrip := hv (k, v) (List.mem_cons_self _ _)
        have hrs := (strip_parts hstrip).2
        obtain ⟨a, c, hac, hc⟩ := rstrip_last_not_space hrs hveq
        have hcnl : ¬ c = '\n' := by
          intro e
          rw [e] at hc
          exact absurd hc (by decide)
        obtain ⟨l, hl⟩ := splitNl_snoc_getLast (a := a) hcnl
        rw [← hac] at hl
        rw [List.getLast?_cons, hl]
        simp
    | cons g rest2 =>
      have ihr := ih (by simp)
        (fun kv hkv => hv kv (List.mem_cons_of_mem _ hkv))
      show ((markerLine k :: (splitNl v ++ [[]] ++ blockLines (g :: rest2))).getLast? ≠
        some [])
      rw [List.getLast?_cons]
      rw [List.getLast?_append, List.getLast?_append]
      cases hbl : (blockLines (g :: rest2)).getLast? with
      | none => exact absurd (List.getLast?_eq_none_iff.mp hbl) (blockLines_ne_nil g rest2)
      | some x =>
        rw [hbl] at ihr
        have : x ≠ [] := fun e => ihr.2 (by rw [e])
        simpa using this

theorem splitlines_eq_splitNl {s : Str} (h : (splitNl s).getLast? ≠ some []) :
    splitlines s = splitNl s := by
  rw [splitlines, if_neg h]

theorem scanAux_blockLines (fields : List (Str × Str)) (key : Option Str) (buf : List Str)
    (hwf : ∀ kv ∈ fields, kv.1 ≠ [] ∧ kv.1.all isWordChar = true ∧
      (∀ l ∈ splitNl kv.2, matchFieldHeader (strip l) = none)) :
    scanAux (key, buf) (blockLines fields) = (key, buf) :: rawSections fields := by
  induction fields generalizing key buf with
  | nil => simp [blockLines, rawSections, scanAux]
  | cons f rest ih =>
    obtain ⟨k, v⟩ := f
    have hk := hwf (k, v) (List.mem_cons_self _ _)
    cases rest with
    | nil =>
      show scanAux (key, buf) (markerLine k :: (if v = [] then [] else splitNl v)) = _
      rw [scanAux_marker _ _ _ hk.1 hk.2.1]
      by_cases hveq : v = []
      · rw [if_pos hveq]
        show (key, buf) :: scanAux (some k, []) [] =
          (key, buf) :: [(some k, if v = [] then [] else splitNl v)]
        rw [if_pos hveq]
        rfl
      · rw [if_neg hveq]
        have hskip := scanAux_skip_lines (some k) [] (splitNl v) [] hk.2.2
        rw [List.append_nil] at hskip
        rw [hskip]
        show (key, buf) :: [(some k, [] ++ splitNl v)] =
          (key, buf) :: [(some k, if v = [] then [] else splitNl v)]
        rw [if_neg hveq]
        simp
    | cons g rest2 =>
      show scanAux (key, buf)
        (markerLine k :: (splitNl v ++ [[]] ++ blockLines (g :: rest2))) = _
      rw [scanAux_marker _ _ _ hk.1 hk.2.1]
      have hnone : ∀ l ∈ splitNl v ++ [[]], matchFieldHeader (strip l) = none := by
        intro l hl
        rcases List.mem_append.mp hl with h1 | h2
        · exact hk.2.2 l h1
        · simp only [List.mem_singleton] at h2
          rw [h2]
          decide
      rw [scanAux_skip_lines (some k) [] _ _ hnone]
      rw [ih (some k) ([] ++ (splitNl v ++ [[]]))
        (fun kv hkv => hwf kv (List.mem_cons_of_mem _ hkv))]
      show (key, buf) :: (some k, [] ++ (splitNl v ++ [[]])) :: rawSections (g :: rest2) =
        (key, buf) :: (some k, splitNl v ++ [[]]) :: rawSections (g :: rest2)
      simp

theorem strip_join_mid {v : Str} (hv : strip v = v) :
    strip (joinNl (splitNl v ++ [[]])) = v := by
  rw [joinNl_append_single _ _ (splitNl_ne_nil v), joinNl_splitNl]
  by_cases hveq : v = []
  · subst hveq
    decide
  · obtain ⟨hls, hrs⟩ := strip_parts hv
    rw [strip]
    have h1 : lstrip (v ++ ['\n']) = v ++ ['\n'] := by
      rw [lstrip_append, if_neg (by rw [hls]; exact hveq), hls]
    have h2 : v ++ '\n' :: [] = v ++ ['\n'] := rfl
    rw [h2, h1, rstrip_snoc_drop (by decide), hrs]

theorem map_rawSections (fields : List (Str × Str))
    (hv : ∀ kv ∈ fields, strip kv.2 = kv.2) :
    (rawSections fields).map (fun kv => (kv.1, strip (joinNl kv.2))) =
      fields.map (fun kv => (some kv.1, kv.2)) := by
  induction fields with
  | nil => rfl
  | cons f rest ih =>
    obtain ⟨k, v⟩ := f
    have hkv := hv (k, v) (List.mem_cons_self _ _)
    cases rest with
    | nil =>
      show [((some k : Option Str), strip (joinNl (if v = [] then [] else splitNl v)))] =
        [(some k, v)]
      by_cases hveq : v = []
      · subst hveq
        rw [if_pos rfl]
        rfl
      · rw [if_neg hveq, joinNl_splitNl, hkv]
    | cons g rest2 =>
      show ((some k : Option Str), strip (joinNl (splitNl v ++ [[]]))) ::
          (rawSections (g :: rest2)).map (fun kv => (kv.1, strip (joinNl kv.2))) =
        (some k, v) :: (g :: rest2).map (fun kv => (some kv.1, kv.2))
      rw [strip_join_mid hkv, ih (fun kv hkv2 => hv kv (List.mem_cons_of_mem _ hkv2))]

theorem contains_iff_mem {a : Str} {l : List Str} : l.contains a = true ↔ a ∈ l := by
  rw [List.contains_iff_exists_mem_beq]
  constructor
  · rintro ⟨x, hx, he⟩
    rwa [show a = x from by simpa using he]
  · intro h
    exact ⟨a, h, by simp⟩

theorem lookup_none_of_not_mem {α : Type} {l : List (Str × α)} {k : Str}
    (h : k ∉ l.map Prod.fst) : l.lookup k = none := by
  rw [List.lookup_eq_none_iff]
  intro p hp
  have hm : p.1 ∈ l.map Prod.fst := List.mem_map_of_mem _ hp
  simp only [bne_iff_ne, ne_eq]
  intro e
  exact h (e ▸ hm)

theorem collectAux_fresh (outKeys : List Str) (L : List (Str × Str)) :
    ∀ acc : List (Str × Str), (∀ kv ∈ L, outKeys.contains kv.1 = true) →
    (∀ kv ∈ L, kv.1 ∉ acc.map Prod.fst) →
    (L.map Prod.fst).Nodup →
    collectAux outKeys acc (L.map (fun kv => ((some kv.1 : Option Str), kv.2))) =
      acc ++ L := by
  induction L with
  | nil =>
    intro acc _ _ _
    simp [collectAux]
  | cons f L ih =>
    intro acc hcont hfresh hnd
    obtain ⟨k, v⟩ := f
    simp only [List.map_cons, collectAux]
    rw [lookup_none_of_not_mem (hfresh (k, v) (List.mem_cons_self _ _))]
    rw [if_pos (by
      simp only [Option.isNone_none, Bool.true_and]
      exact hcont (k, v) (List.mem_cons_self _ _))]
    rw [ih (acc ++ [(k, v)])
      (fun kv hkv => hcont kv (List.mem_cons_of_mem _ hkv))
      (fun kv hkv => by
        simp only [List.map_append, List.map_cons, List.map_nil, List.mem_append,
          List.mem_singleton]
        rintro (hin | he)
        · exact hfresh kv (List.mem_cons_of_mem _ hkv) hin
        · rw [List.map_cons] at hnd
          have hk2 := (List.nodup_cons.mp hnd).1
          have hmm : kv.1 ∈ L.map Prod.fst := List.mem_map.mpr ⟨kv, hkv, rfl⟩
          exact hk2 (he ▸ hmm))
      (by rw [List.map_cons] at hnd; exact (List.nodup_cons.mp hnd).2)]
    simp

theorem keySetEq_self (l : List Str) : keySetEq l l = true := by
  simp only [keySetEq, Bool.and_eq_true, List.all_eq_true]
  exact ⟨fun k hk => contains_iff_mem.mpr hk, fun k hk => contains_iff_mem.mpr hk⟩

theorem parseSections_render (fields : List (Str × Str)) (hne : fields ≠ [])
    (hkeys : ∀ kv ∈ fields, kv.1 ≠ [] ∧ kv.1.all isWordChar = true)
    (hvals : ∀ kv ∈ fields, strip kv.2 = kv.2 ∧
      ∀ l ∈ splitNl kv.2, matchFieldHeader (strip l) = none) :
    parseSections (format_fields fields) =
      (none, []) :: fields.map (fun kv => ((some kv.1 : Option Str), kv.2)) := by
  have hff : format_fields fields = strip (join2Nl (fields.map blockOf)) := rfl
  have hsplit : splitNl (format_fields fields) = blockLines fields := by
    rw [hff]
    exact splitNl_strip_doc fields hne
      (fun kv hkv => ⟨(hkeys kv hkv).1, (hkeys kv hkv).2, (hvals kv hkv).1⟩)
  have hlast := blockLines_getLast_ne fields hne (fun kv hkv => (hvals kv hkv).1)
  have hlines : splitlines (format_fields fields) = blockLines fields := by
    rw [splitlines_eq_splitNl (by rw [hsplit]; exact hlast.2), hsplit]
  rw [parseSections, hlines,
    scanAux_blockLines fields none []
      (fun kv hkv => ⟨(hkeys kv hkv).1, (hkeys kv hkv).2, (hvals kv hkv).2⟩)]
  rw [List.map_cons, map_rawSections fields (fun kv hkv => (hvals kv hkv).1)]
  rfl

/-- Claim C1 (counterexample): the round trip is not the identity for every
marker-free value mapping: a value with leading whitespace comes back
stripped.  For the mapping `{a: " x"}` (whose value contains no line
matching the marker pattern), parsing the rendered block returns `{a: "x"}`,
not the original mapping. -/
theorem c1_counterexample :
    parseFields [['a']] (format_fields [(['a'], [' ', 'x'])]) =
        Except.ok [(['a'], ['x'])] ∧
      (Except.ok [(['a'], ['x'])] : Except PyErr (List (Str × Str))) ≠
        Except.ok [(['a'], [' ', 'x'])] := by
  constructor
  · decide
  · decide

/-- Claim C1 (amended): for every ordered mapping whose keys are distinct
nonempty `\w+` words and whose values use only `'\n'` line breaks, contain
no line matching the header pattern, and are already whitespace-stripped,
`parseFields (keys fields) (format_fields fields)` returns exactly
`fields`; in general each value comes back in whitespace-stripped form. -/
theorem c1_round_trip_amended (fields : List (Str × Str))
    (hnd : (fields.map Prod.fst).Nodup)
    (hkeys : ∀ kv ∈ fields, kv.1 ≠ [] ∧ kv.1.all isWordChar = true)
    (hvals : ∀ kv ∈ fields, strip kv.2 = kv.2 ∧ plainText kv.2 = true ∧
      ∀ l ∈ splitNl kv.2, matchFieldHeader (strip l) = none) :
    parseFields (fields.map Prod.fst) (format_fields fields) = Except.ok fields := by
  cases fields with
  | nil => decide
  | cons f rest =>
    have hsections := parseSections_render (f :: rest) (by simp) hkeys
      (fun kv hkv => ⟨(hvals kv hkv).1, (hvals kv hkv).2.2⟩)
    have hcollect : collectFields ((f :: rest).map Prod.fst)
        (parseSections (format_fields (f :: rest))) = f :: rest := by
      rw [hsections, collectFields]
      show collectAux _ [] (((f :: rest)).map (fun kv => ((some kv.1 : Option Str), kv.2))) =
        f :: rest
      rw [collectAux_fresh _ _ []
        (fun kv hkv => contains_iff_mem.mpr (List.mem_map_of_mem Prod.fst hkv))
        (fun kv _ => by simp)
        hnd]
      simp
    rw [parseFields, hcollect, if_pos (keySetEq_self _)]

/-- Witness for the amended claim C1 at a concrete two-line value. -/
theorem c1_round_trip_witness :
    parseFields [['a']] (format_fields [(['a'], ['x', '\n', 'y'])]) =
      Except.ok [(['a'], ['x', '\n', 'y'])] := by
  exact c1_round_trip_amended [(['a'], ['x', '\n', 'y'])]
    (by decide) (by decide) (by decide)

theorem collectAux_none_cons (outKeys : List Str) (acc : List (Str × Str)) (v : Str)
    (rest : List (Option Str × Str)) :
    collectAux outKeys acc ((none, v) :: rest) = collectAux outKeys acc rest := rfl

theorem collectAux_some_cons (outKeys : List Str) (acc : List (Str × Str)) (k2 v : Str)
    (rest : List (Option Str × Str)) :
    collectAux outKeys acc ((some k2, v) :: rest) =
      if (acc.lookup k2).isNone && outKeys.contains k2 then
        collectAux outKeys (acc ++ [(k2, v)]) rest
      else collectAux outKeys acc rest := rfl

theorem mem_keys_collectAux (outKeys : List Str) (sections : List (Option Str × Str)) :
    ∀ (acc : List (Str × Str)) (k : Str),
      k ∈ (collectAux outKeys acc sections).map Prod.fst ↔
        k ∈ acc.map Prod.fst ∨
          (k ∈ sections.filterMap Prod.fst ∧ outKeys.contains k = true) := by
  induction sections with
  | nil =>
    intro acc k
    simp [collectAux]
  | cons s rest ih =>
    intro acc k
    obtain ⟨ok, v⟩ := s
    cases ok with
    | none =>
      rw [collectAux_none_cons, ih]
      simp [List.filterMap_cons]
    | some k2 =>
      by_cases hcond : ((acc.lookup k2).isNone && outKeys.contains k2) = true
      · rw [collectAux_some_cons, if_pos hcond, ih]
        have hc2 : outKeys.contains k2 = true := (Bool.and_eq_true_iff.mp hcond).2
        have hmapp : (acc ++ [(k2, v)]).map Prod.fst = acc.map Prod.fst ++ [k2] := by simp
        have hfm : ((some k2, v) :: rest).filterMap Prod.fst =
            k2 :: rest.filterMap Prod.fst := by simp
        rw [hmapp, hfm]
        simp only [List.mem_append, List.mem_cons, List.not_mem_nil, or_false]
        constructor
        · rintro ((ha | he) | ⟨hn, hc⟩)
          · exact Or.inl ha
          · exact Or.inr ⟨Or.inl he, he ▸ hc2⟩
          · exact Or.inr ⟨Or.inr hn, hc⟩
        · rintro (ha | ⟨he | hn, hc⟩)
          · exact Or.inl (Or.inl ha)
          · exact Or.inl (Or.inr he)
          · exact Or.inr ⟨hn, hc⟩
      · rw [collectAux_some_cons, if_neg hcond, ih]
        have hfm : ((some k2, v) :: rest).filterMap Prod.fst =
            k2 :: rest.filterMap Prod.fst := by simp
        rw [hfm]
        simp only [List.mem_cons]
        have hsplit : ¬ (acc.lookup k2).isNone = true ∨ ¬ outKeys.contains k2 = true := by
          by_contra hb
          push_neg at hb
          exact hcond (Bool.and_eq_true_iff.mpr ⟨by simpa using hb.1, hb.2⟩)
        constructor
        · rintro (ha | ⟨hn, hc⟩)
          · exact Or.inl ha
          · exact Or.inr ⟨Or.inr hn, hc⟩
        · rintro (ha | ⟨he | hn, hc⟩)
          · exact Or.inl ha
          · subst he
            rcases hsplit with h1 | h2
            · have hsome : (acc.lookup k).isSome = true := by
                cases hl : acc.lookup k with
                | none => exact absurd (by rw [hl]; rfl) h1
                | some w => rfl
              obtain ⟨p, hp, hbeq⟩ := List.lookup_isSome_iff.mp hsome
              have : k = p.1 := by simpa using hbeq
              exact Or.inl (this ▸ List.mem_map.mpr ⟨p, hp, rfl⟩)
            · exact absurd hc h2
          · exact Or.inr ⟨hn, hc⟩

theorem keySetEq_iff_of_same_mem {a a2 b : List Str}
    (h : ∀ x, x ∈ a ↔ x ∈ a2) :
    (keySetEq a b = true ↔ keySetEq a2 b = true) := by
  simp only [keySetEq, Bool.and_eq_true, List.all_eq_true]
  constructor
  · rintro ⟨h1, h2⟩
    refine ⟨fun k hk => h1 k ((h k).mpr hk), fun k hk => ?_⟩
    have := h2 k hk
    rw [contains_iff_mem] at this ⊢
    exact (h k).mp this
  · rintro ⟨h1, h2⟩
    refine ⟨fun k hk => h1 k ((h k).mp hk), fun k hk => ?_⟩
    have := h2 k hk
    rw [contains_iff_mem] at this ⊢
    exact (h k).mpr this

/-- Claim C2: `parse` raises an error exactly when the set of recovered
section names (anonymous section dropped, unexpected names dropped) is not
set-equal to the expected output-field name set; this covers both a missing
expected marker and the case where only unexpected extra markers would make
up the difference. -/
theorem c2_parse_error_iff (outKeys : List Str) (completion : Str) :
    (∃ e, parseFields outKeys completion = Except.error e) ↔
      ¬ keySetEq (recoveredNames outKeys completion) outKeys = true := by
  have hmem : ∀ k, k ∈ (collectFields outKeys (parseSections completion)).map Prod.fst ↔
      k ∈ recoveredNames outKeys completion := by
    intro k
    rw [collectFields, mem_keys_collectAux]
    simp [recoveredNames, List.mem_filter]
  have hkeq := keySetEq_iff_of_same_mem (b := outKeys) hmem
  by_cases hc : keySetEq ((collectFields outKeys (parseSections completion)).map Prod.fst)
      outKeys = true
  · rw [parseFields, if_pos hc]
    constructor
    · rintro ⟨e, he⟩
      exact absurd he (by simp)
    · intro hn
      exact absurd (hkeq.mp hc) hn
  · rw [parseFields, if_neg hc]
    constructor
    · intro _
      exact fun h => hc (hkeq.mpr h)
    · intro _
      exact ⟨_, rfl⟩

theorem lookup_collectAux (outKeys : List Str) (sections : List (Option Str × Str)) :
    ∀ (acc : List (Str × Str)) (k : Str), k ∈ outKeys →
      (collectAux outKeys acc sections).lookup k =
        (acc.lookup k).or (firstNamed k sections) := by
  induction sections with
  | nil =>
    intro acc k _
    simp [collectAux, firstNamed, Option.or_none]
  | cons s rest ih =>
    intro acc k hk
    obtain ⟨ok, v⟩ := s
    cases ok with
    | none =>
      rw [collectAux_none_cons, ih acc k hk]
      have : firstNamed k ((none, v) :: rest) = firstNamed k rest := by
        simp [firstNamed, List.filterMap_cons]
      rw [this]
    | some k2 =>
      by_cases hkk : k2 = k
      · subst hkk
        have hfn : firstNamed k2 ((some k2, v) :: rest) = some v := by
          simp [firstNamed, List.filterMap_cons]
        by_cases hcond : ((acc.lookup k2).isNone && outKeys.contains k2) = true
        · rw [collectAux_some_cons, if_pos hcond, ih _ k2 hk, hfn]
          have hnone : acc.lookup k2 = none := by
            have := (Bool.and_eq_true_iff.mp hcond).1
            cases hl : acc.lookup k2 with
            | none => rfl
            | some w => rw [hl] at this; exact absurd this (by simp)
          rw [List.lookup_append, hnone, Option.none_or, Option.none_or,
            List.lookup_cons_self]
          rfl
        · rw [collectAux_some_cons, if_neg hcond, ih _ k2 hk, hfn]
          have hsome : ∃ w, acc.lookup k2 = some w := by
            have hc2 : outKeys.contains k2 = true := contains_iff_mem.mpr hk
            cases hl : acc.lookup k2 with
            | none =>
              exact absurd (Bool.and_eq_true_iff.mpr ⟨by rw [hl]; rfl, hc2⟩) hcond
            | some w => exact ⟨w, rfl⟩
          obtain ⟨w, hw⟩ := hsome
          rw [hw]
          rfl
      · have hfn : firstNamed k ((some k2, v) :: rest) = firstNamed k rest := by
          simp only [firstNamed, List.filterMap_cons]
          rw [if_neg (by simp only [Option.some.injEq]; exact hkk)]
        by_cases hcond : ((acc.lookup k2).isNone && outKeys.contains k2) = true
        · rw [collectAux_some_cons, if_pos hcond, ih _ k hk, hfn, List.lookup_append]
          have hmiss : ([(k2, v)] : List (Str × Str)).lookup k = none := by
            rw [List.lookup_eq_none_iff]
            intro p hp
            rw [List.mem_singleton] at hp
            subst hp
            simp only [bne_iff_ne, ne_eq]
            exact fun e => hkk e.symm
          rw [hmiss, Option.or_none]
        · rw [collectAux_some_cons, if_neg hcond, ih _ k hk, hfn]

/-- Claim C4: first-wins duplicate resolution.  When `parse` succeeds, the
value it returns for each expected name `k` is the stripped content of the
first scanned section named `k`; all later sections with that name are
ignored. -/
theorem c4_first_wins (outKeys : List Str) (completion : Str)
    (fields : List (Str × Str)) (k : Str)
    (hok : parseFields outKeys completion = Except.ok fields)
    (hk : k ∈ outKeys) :
    fields.lookup k = firstNamed k (parseSections completion) := by
  have hfields : fields = collectFields outKeys (parseSections completion) := by
    rw [parseFields] at hok
    by_cases hc : keySetEq ((collectFields outKeys (parseSections completion)).map Prod.fst)
        outKeys = true
    · rw [if_pos hc] at hok
      exact (Except.ok.inj hok).symm
    · rw [if_neg hc] at hok
      exact absurd hok (by simp)
  rw [hfields, collectFields, lookup_collectAux outKeys _ [] k hk]
  rfl

/-- Witness for claim C4: a completion with two `a`-sections keeps the
first section's content. -/
theorem c4_first_wins_witness :
    (Except.ok [(['a'], ['1'])] : Except PyErr (List (Str × Str))).toOption.getD [] =
        [(['a'], ['1'])] ∧
      [(['a'], ['1'])].lookup ['a'] =
        firstNamed ['a'] (parseSections dupCompletion) := by
  constructor
  · rfl
  · exact c4_first_wins [['a']] dupCompletion
      [(['a'], ['1'])] ['a'] (by decide) (by decide)

/-- Claim C3 (counterexample): the header pattern is not anchored at the
end of the line.  The trimmed line `[[[[ #### a #### ]]]] x` does not match
the spec's anchored pattern, yet the scanner treats it as a header opening
section `a` (discarding the trailing text) instead of appending it to the
current buffer: parsing `[[[[ #### a #### ]]]] x\nv` against `{a}` succeeds
with `a = "v"`, where the claim predicts a parse failure. -/
theorem c3_counterexample :
    matchFieldHeader c3line = some ['a'] ∧
      specAnchoredHeaderMatch c3line = none ∧
      parseFields [['a']] c3completion = Except.ok [(['a'], ['v'])] := by
  refine ⟨by decide, by decide, by decide⟩

/-- Claim C3 (amended): a line opens a new section iff its trimmed form
BEGINS with the marker pattern `\[\[\[\[ #### (\w+) #### \]\]\]\]` (the
`re.match` is anchored at the start only, so arbitrary trailing text after
the closing brackets is accepted and discarded); every other line is
appended verbatim to the current section's buffer. -/
theorem c3_header_prefix_amended :
    (∀ l name : Str, matchFieldHeader l = some name ↔
        name ≠ [] ∧ name.all isWordChar = true ∧
          ∃ t, l = markerHead ++ (name ++ (markerTail ++ t))) ∧
      (∀ (key : Option Str) (buf : List Str) (line : Str) (rest : List Str),
        scanAux (key, buf) (line :: rest) =
          match matchFieldHeader (strip line) with
          | some name => (key, buf) :: scanAux (some name, []) rest
          | none => scanAux (key, buf ++ [line]) rest) := by
  exact ⟨fun l name => matchFieldHeader_eq_some, fun key buf line rest => rfl⟩

/-- Claim C7: when the value mapping does not cover every field name, the
turn builder fails immediately with an error reporting the expected field
names against the actual keys, and produces no content parts. -/
theorem c7_missing_field (env : ImgEnv) (field_names : List Str)
    (values : List (Str × PyVal))
    (h : field_names.all (fun k => (values.lookup k).isSome) = false) :
    format_chat_turn env field_names values =
      Except.error (PyErr.expectedGot field_names (values.map Prod.fst)) := by
  rw [format_chat_turn, if_neg (by rw [h]; exact Bool.false_ne_true)]

/-- Witness for claim C7: asking for field `a` with an empty value mapping
fails with the expected-versus-got error. -/
theorem c7_missing_field_witness :
    format_chat_turn envTriv [['a']] [] =
      Except.error (PyErr.expectedGot [['a']] []) := by
  exact c7_missing_field envTriv [['a']] [] (by decide)

theorem buildImageParts_nil (env : ImgEnv) (values : List (Str × PyVal)) :
    buildImageParts env values [] = Except.ok [] := rfl

theorem buildImageParts_ok (env : ImgEnv) (values : List (Str × PyVal)) :
    ∀ (names : List Str) (imgs : List ContentPart),
      buildImageParts env values names = Except.ok imgs →
      imgs = (names.filter (fun k => isImageName k && (lookupD values k).truthy)).map
        (fun k => ContentPart.image (dataUriHead ++ encOf env (lookupD values k))) := by
  intro names
  induction names with
  | nil =>
    intro imgs h
    rw [buildImageParts_nil] at h
    simp only [Except.ok.injEq] at h
    rw [← h]
    rfl
  | cons k ks ih =>
    intro imgs h
    rw [show buildImageParts env values (k :: ks) =
      (if isImageName k then
        if (lookupD values k).truthy then
          match encode_image env (lookupD values k) with
          | Except.error e => Except.error e
          | Except.ok b =>
            if b.isEmpty then Except.error (PyErr.failedEncode k)
            else
              match buildImageParts env values ks with
              | Except.error e => Except.error e
              | Except.ok rest => Except.ok (ContentPart.image (dataUriHead ++ b) :: rest)
        else buildImageParts env values ks
      else buildImageParts env values ks) from rfl] at h
    by_cases him : isImageName k = true
    · rw [if_pos him] at h
      by_cases htr : (lookupD values k).truthy = true
      · rw [if_pos htr] at h
        cases henc : encode_image env (lookupD values k) with
        | error e =>
          rw [henc] at h
          exact absurd h (by simp)
        | ok b =>
          rw [henc] at h
          replace h : (if b.isEmpty = true then Except.error (PyErr.failedEncode k)
              else match buildImageParts env values ks with
              | Except.error e => Except.error e
              | Except.ok rest =>
                Except.ok (ContentPart.image (dataUriHead ++ b) :: rest)) =
              Except.ok imgs := h
          by_cases hb : b.isEmpty = true
          · rw [if_pos hb] at h
            exact absurd h (by simp)
          · rw [if_neg hb] at h
            cases hrest : buildImageParts env values ks with
            | error e =>
              rw [hrest] at h
              exact absurd h (by simp)
            | ok rest =>
              rw [hrest] at h
              simp only [Except.ok.injEq] at h
              rw [← h, ih rest hrest, List.filter_cons,
                if_pos (by rw [him, htr]; rfl), List.map_cons]
              have : encOf env (lookupD values k) = b := by
                rw [encOf, henc]
                rfl
              rw [this]
      · rw [if_neg htr] at h
        rw [ih imgs h, List.filter_cons,
          if_neg (by simp only [him, Bool.true_and]; exact htr)]
    · rw [if_neg him] at h
      rw [ih imgs h, List.filter_cons,
        if_neg (by simp only [Bool.and_eq_true_iff]; rintro ⟨h1, _⟩; exact him h1)]

theorem chat_turn_layout (env : ImgEnv) (field_names : List Str)
    (values : List (Str × PyVal)) (parts : List ContentPart)
    (h : format_chat_turn env field_names values = Except.ok parts) :
    parts =
      (field_names.filter (fun k => isImageName k && (lookupD values k).truthy)).map
        (fun k => ContentPart.image (dataUriHead ++ encOf env (lookupD values k))) ++
      [ContentPart.text (format_fields (pyDict
        ((field_names.filter (fun k => !isImageName k)).map
          (fun k => (k, (lookupD values k).fstr)))))] := by
  rw [format_chat_turn] at h
  by_cases hall : field_names.all (fun k => (values.lookup k).isSome) = true
  · rw [if_pos hall] at h
    cases hb : buildImageParts env values field_names with
    | error e =>
      rw [hb] at h
      exact absurd h (by simp)
    | ok imgs =>
      rw [hb] at h
      simp only [Except.ok.injEq] at h
      rw [← h, buildImageParts_ok env values field_names imgs hb]
  · rw [if_neg hall] at h
    exact absurd h (by simp)

/-- Claim C5: on a covered value mapping, the built content is exactly one
image part per image-named field with a truthy value, in field order,
followed by exactly one trailing text part holding the rendered block of
the non-image fields (present even when that block is empty); image-named
fields with falsy values contribute nothing. -/
theorem c5_content_layout (env : ImgEnv) (field_names : List Str)
    (values : List (Str × PyVal)) (parts : List ContentPart)
    (h : format_chat_turn env field_names values = Except.ok parts) :
    parts =
      (field_names.filter (fun k => isImageName k && (lookupD values k).truthy)).map
        (fun k => ContentPart.image (dataUriHead ++ encOf env (lookupD values k))) ++
      [ContentPart.text (format_fields (pyDict
        ((field_names.filter (fun k => !isImageName k)).map
          (fun k => (k, (lookupD values k).fstr)))))] := by
  exact chat_turn_layout env field_names values parts h

/-- Witness for claim C5 at a mapping with one image field and one text
field. -/
theorem c5_content_layout_witness :
    c5parts =
      ([imageSub, ['a']].filter
          (fun k => isImageName k && (lookupD demoVals k).truthy)).map
        (fun k => ContentPart.image (dataUriHead ++ encOf envTriv (lookupD demoVals k))) ++
      [ContentPart.text (format_fields (pyDict
        (([imageSub, ['a']].filter (fun k => !isImageName k)).map
          (fun k => (k, (lookupD demoVals k).fstr)))))] := by
  exact c5_content_layout envTriv [imageSub, ['a']] demoVals c5parts rfl

/-- Claim C9: every image content part the turn builder produces has a url
beginning with the literal `data:image/jpeg;base64,`, for every collaborator
environment — including the native-image branch, whose payload is re-encoded
with the PNG saver before base64, so the declared JPEG media type need not
match the encoded format. -/
theorem c9_data_uri (env : ImgEnv) (field_names : List Str)
    (values : List (Str × PyVal)) (parts : List ContentPart)
    (h : format_chat_turn env field_names values = Except.ok parts) :
    (∀ url : Str, ContentPart.image url ∈ parts →
        startsWith dataUriHead url = true) ∧
      (∀ payload : List Nat, encode_image env (PyVal.vImage payload) =
        Except.ok (env.b64 (env.pngSave payload))) := by
  refine ⟨?_, fun payload => rfl⟩
  intro url hmem
  rw [chat_turn_layout env field_names values parts h] at hmem
  rcases List.mem_append.mp hmem with h1 | h2
  · obtain ⟨k, _, hk⟩ := List.mem_map.mp h1
    have : url = dataUriHead ++ encOf env (lookupD values k) := by
      injection hk.symm
    rw [this]
    exact startsWith_self_append _ _
  · rw [List.mem_singleton] at h2
    exact absurd h2 (by simp)

/-- Witness for claim C9: the native-image part produced on `demoVals`
bears the jpeg data-URI head even though the payload went through the PNG
saver. -/
theorem c9_data_uri_witness :
    startsWith dataUriHead (dataUriHead ++ ['Q', 'g']) = true := by
  exact (c9_data_uri envTriv [imageSub, ['a']] demoVals c5parts rfl).1
    (dataUriHead ++ ['Q', 'g']) (by decide)

theorem formatDemos_ok (env : ImgEnv) (sig : Signature) :
    ∀ (demos : List Demo) (body : List Message),
      formatDemos env sig demos = Except.ok body →
      body.map Message.role = demos.flatMap (fun _ => [roleUser, roleAssistant]) ∧
        body.length = 2 * demos.length := by
  intro demos
  induction demos with
  | nil =>
    intro body h
    simp only [formatDemos, Except.ok.injEq] at h
    rw [← h]
    exact ⟨rfl, rfl⟩
  | cons demo rest ih =>
    intro body h
    rw [show formatDemos env sig (demo :: rest) =
      (match format_chat_turn env (sig.input_fields.map Prod.fst) demo with
      | Except.error e => Except.error e
      | Except.ok u =>
        match format_chat_turn env (sig.output_fields.map Prod.fst ++ [completedKey])
            (dictInsert demo completedKey (PyVal.vStr [])) with
        | Except.error e => Except.error e
        | Except.ok a =>
          match formatDemos env sig rest with
          | Except.error e => Except.error e
          | Except.ok body =>
            Except.ok (Message.mk roleUser (MsgContent.parts u) ::
              Message.mk roleAssistant (MsgContent.parts a) :: body)) from rfl] at h
    cases hu : format_chat_turn env (sig.input_fields.map Prod.fst) demo with
    | error e =>
      rw [hu] at h
      exact absurd h (by simp)
    | ok u =>
      rw [hu] at h
      cases ha : format_chat_turn env (sig.output_fields.map Prod.fst ++ [completedKey])
          (dictInsert demo completedKey (PyVal.vStr [])) with
      | error e =>
        rw [ha] at h
        exact absurd h (by simp)
      | ok a =>
        rw [ha] at h
        cases hr : formatDemos env sig rest with
        | error e =>
          rw [hr] at h
          exact absurd h (by simp)
        | ok tailBody =>
          rw [hr] at h
          simp only [Except.ok.injEq] at h
          obtain ⟨hroles, hlen⟩ := ih tailBody hr
          rw [← h]
          constructor
          · simp only [List.map_cons, List.flatMap_cons, hroles]
            rfl
          · simp only [List.length_cons, hlen, List.length_cons]
            omega

/-- Claim C6: whenever `format` succeeds on `n` demos it returns exactly
`2 n + 2` messages: one system message, then a user/assistant pair per demo
in order, then one final user message with no assistant counterpart. -/
theorem c6_message_shape (env : ImgEnv) (sig : Signature) (demos : List Demo)
    (inputs : Demo) (msgs : List Message)
    (h : ImageChatAdapter.format env sig demos inputs = Except.ok msgs) :
    msgs.map Message.role =
        roleSystem :: (demos.flatMap (fun _ => [roleUser, roleAssistant]) ++ [roleUser]) ∧
      msgs.length = 2 * demos.length + 2 := by
  rw [show ImageChatAdapter.format env sig demos inputs =
    (match formatDemos env sig demos with
    | Except.error e => Except.error e
    | Except.ok body =>
      match format_chat_turn env (sig.input_fields.map Prod.fst) inputs with
      | Except.error e => Except.error e
      | Except.ok fin =>
        Except.ok (Message.mk roleSystem (MsgContent.text (prepare_instructions sig)) ::
          (body ++ [Message.mk roleUser (MsgContent.parts fin)]))) from rfl] at h
  cases hb : formatDemos env sig demos with
  | error e =>
    rw [hb] at h
    exact absurd h (by simp)
  | ok body =>
    rw [hb] at h
    cases hf : format_chat_turn env (sig.input_fields.map Prod.fst) inputs with
    | error e =>
      rw [hf] at h
      exact absurd h (by simp)
    | ok fin =>
      rw [hf] at h
      simp only [Except.ok.injEq] at h
      obtain ⟨hroles, hlen⟩ := formatDemos_ok env sig demos body hb
      rw [← h]
      constructor
      · simp only [List.map_cons, List.map_append, hroles, List.map_nil]
      · simp only [List.length_cons, List.length_append, hlen, List.length_nil]

/-- Witness for claim C6 on one empty demo: four messages with roles
system, user, assistant, user. -/
theorem c6_message_shape_witness :
    c6msgs.map Message.role = [roleSystem, roleUser, roleAssistant, roleUser] ∧
      c6msgs.length = 4 := by
  have h := c6_message_shape envTriv sigTriv [[]] [] c6msgs rfl
  exact ⟨h.1, h.2⟩

theorem digitChar_ne_nl (d : Nat) : digitChar d ≠ '\n' := by
  unfold digitChar
  split_ifs <;> decide

theorem natToStrAux_no_nl : ∀ fuel n : Nat, '\n' ∉ natToStrAux fuel n := by
  intro fuel
  induction fuel with
  | zero =>
    intro n h
    simp [natToStrAux] at h
  | succ f ih =>
    intro n h
    rw [show natToStrAux (f + 1) n =
      (if n < 10 then [digitChar n]
      else natToStrAux f (n / 10) ++ [digitChar (n % 10)]) from rfl] at h
    by_cases h10 : n < 10
    · rw [if_pos h10] at h
      rw [List.mem_singleton] at h
      exact digitChar_ne_nl n h.symm
    · rw [if_neg h10] at h
      rcases List.mem_append.mp h with h1 | h2
      · exact ih (n / 10) h1
      · rw [List.mem_singleton] at h2
        exact digitChar_ne_nl (n % 10) h2.symm

theorem natToStr_no_nl (n : Nat) : '\n' ∉ natToStr n := natToStrAux_no_nl _ _

theorem entryLine_no_nl {idx : Nat} {k : Str} {v : FieldSpec}
    (hk : '\n' ∉ k) (ht : '\n' ∉ v.typeName)
    (hd : v.desc ≠ descSentinel k → '\n' ∉ v.desc) :
    '\n' ∉ entryLine idx k v := by
  intro hmem
  simp only [entryLine, List.mem_append] at hmem
  rcases hmem with (((((ha | hb) | hc) | hd2) | he) | hf) | hg
  · exact natToStr_no_nl _ ha
  · exact absurd hb (by decide)
  · exact hk hc
  · exact absurd hd2 (by decide)
  · exact ht he
  · exact absurd hf (by decide)
  · by_cases hds : v.desc = descSentinel k
    · rw [if_pos hds] at hg
      exact absurd hg (List.not_mem_nil _)
    · rw [if_neg hds] at hg
      rcases List.mem_append.mp hg with h5 | h6
      · exact absurd h5 (by decide)
      · exact hd hds h6

theorem entryLine_rstrip (idx : Nat) (k : Str) (v : FieldSpec)
    (hd : v.desc ≠ descSentinel k → v.desc ≠ [] ∧ rstrip v.desc = v.desc) :
    rstrip (entryLine idx k v) = entryLine idx k v ∧ entryLine idx k v ≠ [] := by
  rw [entryLine]
  by_cases hds : v.desc = descSentinel k
  · rw [if_pos hds]
    have hshape : natToStr (idx + 1) ++ dotBacktick ++ k ++ backtickParen ++ v.typeName ++
        closeParen ++ ([] : Str) =
        (natToStr (idx + 1) ++ dotBacktick ++ k ++ backtickParen ++ v.typeName) ++ [')'] := by
      simp [closeParen]
    rw [hshape]
    exact ⟨rstrip_snoc_keep (by decide) _, by simp⟩
  · rw [if_neg hds]
    obtain ⟨hne, hrs⟩ := hd hds
    have hshape : natToStr (idx + 1) ++ dotBacktick ++ k ++ backtickParen ++ v.typeName ++
        closeParen ++ (colonSpace ++ v.desc) =
        (natToStr (idx + 1) ++ dotBacktick ++ k ++ backtickParen ++ v.typeName ++
          closeParen ++ colonSpace) ++ v.desc := by
      simp
    rw [hshape, rstrip_append, if_neg (by rw [hrs]; exact hne), hrs]
    refine ⟨rfl, ?_⟩
    intro he
    rw [List.append_eq_nil] at he
    exact hne he.2

theorem enumLines_cons (idx : Nat) (k : Str) (v : FieldSpec)
    (rest : List (Str × FieldSpec)) :
    enumLines idx ((k, v) :: rest) = entryLine idx k v :: enumLines (idx + 1) rest := rfl

theorem enumLines_no_nl (fields : List (Str × FieldSpec))
    (hwf : ∀ kv ∈ fields, '\n' ∉ kv.1 ∧ '\n' ∉ kv.2.typeName ∧
      (kv.2.desc ≠ descSentinel kv.1 → '\n' ∉ kv.2.desc)) :
    ∀ idx, ∀ l ∈ enumLines idx fields, '\n' ∉ l := by
  induction fields with
  | nil =>
    intro idx l hl
    simp [enumLines] at hl
  | cons f rest ih =>
    intro idx l hl
    obtain ⟨k, v⟩ := f
    rw [enumLines_cons] at hl
    rcases List.mem_cons.mp hl with h1 | h2
    · subst h1
      have h := hwf (k, v) (List.mem_cons_self _ _)
      exact entryLine_no_nl h.1 h.2.1 h.2.2
    · exact ih (fun kv hkv => hwf kv (List.mem_cons_of_mem _ hkv)) (idx + 1) l h2

theorem enumLines_snoc (fields : List (Str × FieldSpec)) (hne : fields ≠ []) :
    ∀ idx, ∃ (A : List Str) (j : Nat) (k : Str) (v : FieldSpec),
      enumLines idx fields = A ++ [entryLine j k v] ∧ (k, v) ∈ fields := by
  induction fields with
  | nil => exact absurd rfl hne
  | cons f rest ih =>
    intro idx
    obtain ⟨k, v⟩ := f
    cases rest with
    | nil =>
      exact ⟨[], idx, k, v, by simp [enumLines_cons, enumLines], List.mem_cons_self _ _⟩
    | cons g rest2 =>
      obtain ⟨A, j, k2, v2, hA, hmem⟩ := ih (by simp) (idx + 1)
      refine ⟨entryLine idx k v :: A, j, k2, v2, ?_, ?_⟩
      · rw [enumLines_cons, hA]
        rfl
      · exact List.mem_cons_of_mem _ hmem

theorem joinNl_cons_decomp (x : Str) (xs : List Str) :
    ∃ t, joinNl (x :: xs) = x ++ t := by
  cases xs with
  | nil => exact ⟨[], by simp [joinNl]⟩
  | cons y ys => exact ⟨'\n' :: joinNl (y :: ys), rfl⟩

theorem splitNl_joinNl_no_nl (lines : List Str) (hne : lines ≠ [])
    (h : ∀ l ∈ lines, '\n' ∉ l) :
    splitNl (joinNl lines) = lines := by
  induction lines with
  | nil => exact absurd rfl hne
  | cons a rest ih =>
    cases rest with
    | nil =>
      show splitNl (joinNl [a]) = [a]
      exact splitNl_no_nl (h a (List.mem_cons_self _ _))
    | cons b rest2 =>
      rw [joinNl_cons_cons, splitNl_append_nl,
        splitNl_no_nl (h a (List.mem_cons_self _ _)),
        ih (by simp) (fun l hl => h l (List.mem_cons_of_mem _ hl))]
      rfl

theorem rstrip_joinNl_snoc (A : List Str) (l : Str) (hr : rstrip l = l) (hlne : l ≠ []) :
    rstrip (joinNl (A ++ [l])) = joinNl (A ++ [l]) := by
  cases A with
  | nil =>
    show rstrip (joinNl [l]) = joinNl [l]
    show rstrip l = l
    exact hr
  | cons a A2 =>
    rw [joinNl_append_single _ _ (by simp)]
    rw [show joinNl (a :: A2) ++ '\n' :: l = (joinNl (a :: A2) ++ ['\n']) ++ l by simp]
    rw [rstrip_append, if_neg (by rw [hr]; exact hlne), hr]

/-- Claim C8 (counterexample): the description suffix is not always included
verbatim: the final `strip()` of `enumerate_fields` removes trailing
whitespace, so the single-field catalog for description `"x "` renders as
`1. \x60a\x60 (str): x`, not `1. \x60a\x60 (str): x `. -/
theorem c8_counterexample :
    enumerate_fields [(['a'], FieldSpec.mk c8typ c8descSp)] = c8lineOut ∧
      enumerate_fields [(['a'], FieldSpec.mk c8typ c8descSp)] ≠ c8lineSp := by
  exact ⟨by decide, by decide⟩

/-- Claim C8 (amended): for every ordered field mapping whose names, type
display names and included descriptions are free of line breaks, and whose
included descriptions are nonempty without trailing whitespace, the catalog
text consists of exactly one line per field, in order, numbered from 1, of
the form `<n>. \x60<name>\x60 (<type>)` with the suffix `: <description>`
omitted exactly when the description equals the sentinel `$\x7b<name>\x7d`
(trailing whitespace of the final line would be trimmed by the outer
strip, and a line-break inside a component would split the line — the
hypotheses exclude those). -/
theorem c8_catalog_amended (fields : List (Str × FieldSpec))
    (hwf : ∀ kv ∈ fields, ('\n' ∉ kv.1 ∧ plainText kv.1 = true) ∧
      ('\n' ∉ kv.2.typeName ∧ plainText kv.2.typeName = true) ∧
      (kv.2.desc ≠ descSentinel kv.1 →
        '\n' ∉ kv.2.desc ∧ plainText kv.2.desc = true ∧ kv.2.desc ≠ [] ∧
          rstrip kv.2.desc = kv.2.desc)) :
    splitlines (enumerate_fields fields) = enumLines 0 fields := by
  cases fields with
  | nil => decide
  | cons f rest =>
    obtain ⟨k, v⟩ := f
    have hwf2 : ∀ kv ∈ (k, v) :: rest, '\n' ∉ kv.1 ∧ '\n' ∉ kv.2.typeName ∧
        (kv.2.desc ≠ descSentinel kv.1 → '\n' ∉ kv.2.desc) := by
      intro kv hkv
      exact ⟨(hwf kv hkv).1.1, (hwf kv hkv).2.1.1, fun hds => ((hwf kv hkv).2.2 hds).1⟩
    have hnl := enumLines_no_nl ((k, v) :: rest) hwf2 0
    have hstable : strip (joinNl (enumLines 0 ((k, v) :: rest))) =
        joinNl (enumLines 0 ((k, v) :: rest)) := by
      obtain ⟨A, j, k2, v2, hA, hmem⟩ := enumLines_snoc ((k, v) :: rest) (by simp) 0
      have hlast := entryLine_rstrip j k2 v2
        (fun hds => ⟨((hwf (k2, v2) hmem).2.2 hds).2.2.1, ((hwf (k2, v2) hmem).2.2 hds).2.2.2⟩)
      have hrst : rstrip (joinNl (enumLines 0 ((k, v) :: rest))) =
          joinNl (enumLines 0 ((k, v) :: rest)) := by
        rw [hA]
        exact rstrip_joinNl_snoc A _ hlast.1 hlast.2
      have hlst : lstrip (joinNl (enumLines 0 ((k, v) :: rest))) =
          joinNl (enumLines 0 ((k, v) :: rest)) := by
        have hhead : ∃ t, entryLine 0 k v = '1' :: t := by
          refine ⟨dotBacktick ++ k ++ backtickParen ++ v.typeName ++ closeParen ++
            (if v.desc = descSentinel k then [] else colonSpace ++ v.desc), ?_⟩
          rw [entryLine, show natToStr (0 + 1) = ['1'] from by decide]
          simp
        obtain ⟨t, ht⟩ := hhead
        obtain ⟨t2, ht2⟩ := joinNl_cons_decomp (entryLine 0 k v) (enumLines 1 rest)
        rw [enumLines_cons, ht2, ht, List.cons_append]
        exact lstrip_cons_keep (by decide) _
      rw [strip, hlst, hrst]
    have hsplit : splitNl (enumerate_fields ((k, v) :: rest)) =
        enumLines 0 ((k, v) :: rest) := by
      rw [show enumerate_fields ((k, v) :: rest) =
        strip (joinNl (enumLines 0 ((k, v) :: rest))) from rfl, hstable]
      exact splitNl_joinNl_no_nl _ (by rw [enumLines_cons]; simp) hnl
    have hlastne : (splitNl (enumerate_fields ((k, v) :: rest))).getLast? ≠ some [] := by
      rw [hsplit]
      obtain ⟨A, j, k2, v2, hA, hmem⟩ := enumLines_snoc ((k, v) :: rest) (by simp) 0
      have hlast := entryLine_rstrip j k2 v2
        (fun hds => ⟨((hwf (k2, v2) hmem).2.2 hds).2.2.1, ((hwf (k2, v2) hmem).2.2 hds).2.2.2⟩)
      rw [hA, List.getLast?_concat]
      simpa using hlast.2
    rw [splitlines_eq_splitNl hlastne, hsplit]

/-- Witness for the amended claim C8: a two-field catalog with one sentinel
description and one real description splits into exactly the two entry
lines. -/
theorem c8_catalog_amended_witness :
    splitlines (enumerate_fields
        [(['a'], FieldSpec.mk c8typ (descSentinel ['a'])), (['b'], FieldSpec.mk c8typ ['y'])]) =
      enumLines 0
        [(['a'], FieldSpec.mk c8typ (descSentinel ['a'])), (['b'], FieldSpec.mk c8typ ['y'])] := by
  exact c8_catalog_amended
    [(['a'], FieldSpec.mk c8typ (descSentinel ['a'])), (['b'], FieldSpec.mk c8typ ['y'])]
    (by decide)

end Vllm
